import Mathlib

/-!
Shallow embedding of the inverted-index core of this repository:
the `InvertedIndex` class (builder and the two observed `query` variants),
and the binary `StructPolicy` codec (`dump`/`load`), together with proofs
of the specified properties.

Python values are modelled as follows: document ids are `ℤ`, terms are
`String`, the `term2doc` dictionary is an association list in insertion
order (Python dicts preserve insertion order and have pairwise distinct
keys), bytes are `ℕ` (each value below 256), and fallible operations
return `Except`.
-/

deriving instance DecidableEq for Except

namespace InvIdx

/-- Term-to-document-ids mapping (`InvertedIndex.term2doc`), as an
insertion-ordered association list. -/
abbrev Term2Doc := List (String × List ℤ)

/-- Dictionary lookup `m[k]` on a string-keyed dict: the value of the first
entry whose key equals `k`, if any. -/
def dictLookup (m : Term2Doc) (k : String) : Option (List ℤ) :=
  (m.find? (fun p => p.1 == k)).map Prod.snd

/-- Postings list of a term: the stored list, or `[]` when the term is
absent from the mapping. -/
def postings (m : Term2Doc) (k : String) : List ℤ :=
  (dictLookup m k).getD []

/-- Splitting of a character list on whitespace runs, accumulating the
current word in reverse; no empty words are produced. -/
def splitWsAux : List Char → List Char → List (List Char)
  | [], acc => if acc = [] then [] else [acc.reverse]
  | c :: cs, acc =>
    if c.isWhitespace then
      if acc = [] then splitWsAux cs [] else acc.reverse :: splitWsAux cs []
    else splitWsAux cs (c :: acc)

/-- Python `text.split()`: split on whitespace runs, dropping empty pieces. -/
def pyTokens (text : String) : List String :=
  (splitWsAux text.data []).map (fun cs => ⟨cs⟩)

/-- Token set of one document, `set(words.split())`, enumerated in some
order (set iteration order is arbitrary; per-term results do not depend
on it). -/
def tokenSet (text : String) : List String :=
  (pyTokens text).dedup

/-- Effect of `index.term2doc[word].append(doc_id)` on a `defaultdict(list)`:
append `v` to the list of the first entry keyed `k`, or create the entry
`(k, [v])` at the end when `k` is absent. -/
def ddAppend (m : Term2Doc) (k : String) (v : ℤ) : Term2Doc :=
  match m with
  | [] => [(k, [v])]
  | p :: rest => if p.1 = k then (p.1, p.2 ++ [v]) :: rest else p :: ddAppend rest k v

/-- Body of the inner loop of `build_inverted_index` for one `(doc_id, word)`
pair: if the word is not yet a key, append the id (creating the entry);
then append the id again only if it is not already in the word's list. -/
def buildWord (m : Term2Doc) (d : ℤ) (w : String) : Term2Doc :=
  let m1 := if (dictLookup m w).isNone then ddAppend m w d else m
  if d ∈ postings m1 w then m1 else ddAppend m1 w d

/-- Processing of one document by `build_inverted_index`: iterate over the
set of distinct tokens of its text. -/
def buildDoc (m : Term2Doc) (d : ℤ) (text : String) : Term2Doc :=
  (tokenSet text).foldl (fun m' w => buildWord m' d w) m

/-- Model of `build_inverted_index`: fold the documents (id, text) in input
order, starting from the empty mapping; returns the built `term2doc`. -/
def buildIdx (documents : List (ℤ × String)) : Term2Doc :=
  documents.foldl (fun m p => buildDoc m p.1 p.2) []

/-- Loop of the HW2 `InvertedIndex.query`: a missing term is skipped
(`continue`, leaving `first` unchanged); a found term's postings are
unioned into the accumulator on the first hit and intersected afterwards. -/
def queryHW2Loop (m : Term2Doc) : List String → Finset ℤ → Bool → Finset ℤ
  | [], s, _ => s
  | w :: ws, s, first =>
    match dictLookup m w with
    | none => queryHW2Loop m ws s first
    | some docs =>
        queryHW2Loop m ws (if first then s ∪ docs.toFinset else s ∩ docs.toFinset) false

/-- Result set of the HW2 `query`; the Python code returns `list(doc_id)`,
an enumeration of this set in unspecified (set-iteration) order. -/
def queryHW2Set (m : Term2Doc) (words : List String) : Finset ℤ :=
  queryHW2Loop m words ∅ true

/-- Loop of the HW1 `InvertedIndex.query`: a missing term sets the
accumulator to `[]` and breaks out of the loop (modelled as `none`). -/
def queryHW1Loop (m : Term2Doc) : List String → Finset ℤ → Bool → Option (Finset ℤ)
  | [], s, _ => some s
  | w :: ws, s, first =>
    match dictLookup m w with
    | none => none
    | some docs =>
        queryHW1Loop m ws (if first then s ∪ docs.toFinset else s ∩ docs.toFinset) false

/-- The HW1 `InvertedIndex.query`: returns `sorted(list(doc_id))`, i.e. the
ascending enumeration of the result set, and `[]` after a missing-term
break. -/
def queryHW1 (m : Term2Doc) (words : List String) : List ℤ :=
  match queryHW1Loop m words ∅ true with
  | none => []
  | some s => s.sort (· ≤ ·)

/-- Possible enumeration of a Python set by `list(...)`: each element of the
set exactly once, in some order. -/
def isSetEnum (l : List ℤ) (s : Finset ℤ) : Prop :=
  l.Nodup ∧ l.toFinset = s

instance (l : List ℤ) (s : Finset ℤ) : Decidable (isSetEnum l s) := by
  unfold isSetEnum; infer_instance

/-- Dynamically-typed Python value that may appear as an element of the
`words` argument of `query`. -/
inductive PyVal where
  | pyStr (s : String)
  | pyInt (n : ℤ)
deriving DecidableEq

/-- Dynamically-typed Python value passed as the `words` argument itself. -/
inductive PyArg where
  | pyList (xs : List PyVal)
  | pyTuple (xs : List PyVal)
  | pyNone
deriving DecidableEq

/-- Python `==` between a candidate word and a string dictionary key: an
`int` never equals a `str` key. -/
def keyMatches (v : PyVal) (k : String) : Bool :=
  match v with
  | .pyStr s => s == k
  | .pyInt _ => false

/-- Dictionary membership/lookup for a dynamically-typed word. -/
def dictLookupDyn (m : Term2Doc) (v : PyVal) : Option (List ℤ) :=
  (m.find? (fun p => keyMatches v p.1)).map Prod.snd

/-- Error raised by the failed `assert isinstance(words, list)`. -/
inductive ValidationError where
  | notAList
deriving DecidableEq

/-- Loop of the HW2 `query` over dynamically-typed elements. -/
def queryDynLoop (m : Term2Doc) : List PyVal → Finset ℤ → Bool → Finset ℤ
  | [], s, _ => s
  | v :: vs, s, first =>
    match dictLookupDyn m v with
    | none => queryDynLoop m vs s first
    | some docs =>
        queryDynLoop m vs (if first then s ∪ docs.toFinset else s ∩ docs.toFinset) false

/-- The HW2 `query` with its dynamically-typed argument: the
`assert isinstance(words, list)` rejects anything that is not a list, and
no further type check is performed on the elements. -/
def queryDyn (m : Term2Doc) (words : PyArg) : Except ValidationError (Finset ℤ) :=
  match words with
  | .pyList xs => .ok (queryDynLoop m xs ∅ true)
  | _ => .error .notAList

/-- Predicate of the spec sentence wording: the argument is a sequence
(list or tuple) whose elements are all strings. -/
def isStringSeq : PyArg → Bool
  | .pyList xs => xs.all (fun v => match v with | .pyStr _ => true | .pyInt _ => false)
  | .pyTuple xs => xs.all (fun v => match v with | .pyStr _ => true | .pyInt _ => false)
  | .pyNone => false

/-- Subscript `m[k]` on the `defaultdict(list)` produced by `load`: a present
key returns its list and leaves the dict unchanged; an absent key inserts
a new empty-list entry at the end and returns it. -/
def ddGetItem (m : Term2Doc) (k : String) : List ℤ × Term2Doc :=
  match dictLookup m k with
  | some v => (v, m)
  | none => ([], m ++ [(k, [])])

/-- State-passing model of the HW2 `query` loop over a `defaultdict`: the
membership guard is checked first, and only a present key is subscripted
(via `ddGetItem`, which would mutate on an absent key). -/
def queryHW2StLoop : Term2Doc → List String → Finset ℤ → Bool → Finset ℤ × Term2Doc
  | m, [], s, _ => (s, m)
  | m, w :: ws, s, first =>
    if (dictLookup m w).isSome then
      let (docs, m') := ddGetItem m w
      queryHW2StLoop m' ws (if first then s ∪ docs.toFinset else s ∩ docs.toFinset) false
    else
      queryHW2StLoop m ws s first

/-- State-passing HW2 `query`: result set together with the final state of
the `term2doc` dictionary. -/
def queryHW2St (m : Term2Doc) (words : List String) : Finset ℤ × Term2Doc :=
  queryHW2StLoop m words ∅ true

/-- UTF-8 encoding of one character (`str.encode('utf-8')`, per scalar
value), as a list of byte values. -/
def encodeChar (c : Char) : List ℕ :=
  let n := c.toNat
  if n < 128 then [n]
  else if n < 2048 then [192 + n / 64, 128 + n % 64]
  else if n < 65536 then [224 + n / 4096, 128 + n / 64 % 64, 128 + n % 64]
  else [240 + n / 262144, 128 + n / 4096 % 64, 128 + n / 64 % 64, 128 + n % 64]

/-- UTF-8 encoding of a term (`key.encode('utf-8')`). -/
def strBytes (s : String) : List ℕ :=
  (s.data.map encodeChar).flatten

/-- Character from a decoded scalar value; `none` for surrogates or values
past the Unicode range (rejected by `bytes.decode('utf-8')`). -/
def mkChar (n : ℕ) : Option Char :=
  if n < 55296 ∨ (57343 < n ∧ n < 1114112) then some (Char.ofNat n) else none

/-- Whether a byte is a UTF-8 continuation byte. -/
def isCont (b : ℕ) : Prop :=
  128 ≤ b ∧ b < 192

instance (b : ℕ) : Decidable (isCont b) := by
  unfold isCont; infer_instance

/-- Decoding of one UTF-8 character from the head of a byte list: the
character and the remaining bytes, or `none` on a truncated sequence,
bad lead or continuation byte, overlong encoding, surrogate or
out-of-range value. -/
def decodeOne : List ℕ → Option (Char × List ℕ)
  | [] => none
  | b0 :: rest =>
    if b0 < 128 then (mkChar b0).map (fun c => (c, rest))
    else if b0 < 194 then none
    else if b0 < 224 then
      if 1 ≤ rest.length then
        let b1 := rest.getD 0 0
        if isCont b1 then
          (mkChar ((b0 - 192) * 64 + (b1 - 128))).map (fun c => (c, rest.drop 1))
        else none
      else none
    else if b0 < 240 then
      if 2 ≤ rest.length then
        let b1 := rest.getD 0 0
        let b2 := rest.getD 1 0
        if isCont b1 ∧ isCont b2 then
          let n := (b0 - 224) * 4096 + (b1 - 128) * 64 + (b2 - 128)
          if 2048 ≤ n then (mkChar n).map (fun c => (c, rest.drop 2)) else none
        else none
      else none
    else if b0 < 245 then
      if 3 ≤ rest.length then
        let b1 := rest.getD 0 0
        let b2 := rest.getD 1 0
        let b3 := rest.getD 2 0
        if isCont b1 ∧ isCont b2 ∧ isCont b3 then
          let n := (b0 - 240) * 262144 + (b1 - 128) * 4096 + (b2 - 128) * 64 + (b3 - 128)
          if 65536 ≤ n then (mkChar n).map (fun c => (c, rest.drop 3)) else none
        else none
      else none
    else none

/-- UTF-8 decoding loop: reads one character per step via `decodeOne`. The
first argument is fuel (one unit per decoded character, so the byte
count always suffices); it only makes the recursion structural. -/
def decA : ℕ → List ℕ → Option (List Char)
  | _, [] => some []
  | 0, _ :: _ => none
  | fuel + 1, b0 :: rest =>
    match decodeOne (b0 :: rest) with
    | none => none
    | some (c, tail) => (decA fuel tail).map (fun cs => c :: cs)

/-- UTF-8 decoding of a byte list into characters (`bytes.decode('utf-8')`). -/
def decodeUtf8 (bs : List ℕ) : Option (List Char) :=
  decA bs.length bs

/-- Decoding of term bytes into a string (`bin_str.decode('utf-8')`). -/
def utf8ToStr (bs : List ℕ) : Option String :=
  (decodeUtf8 bs).map (fun cs => ⟨cs⟩)

/-- Error raised by `struct.pack` when a value does not fit its field
(`struct.error` on the encoding side). -/
inductive EncodingError where
  | fieldOutOfRange
deriving DecidableEq

/-- Error raised during `load` (`struct.error` on a short or malformed
buffer, or `UnicodeDecodeError`). -/
inductive DecodingError where
  | truncated
  | badFormat
  | badUTF8
deriving DecidableEq

/-- Big-endian two's-complement bytes of `v` in a 16-bit field (the byte
image written by `struct.pack('>h', v)` for in-range `v`). -/
def i16bytes (v : ℤ) : List ℕ :=
  let u := (v % 65536).toNat
  [u / 256, u % 256]

/-- Big-endian two's-complement bytes of `v` in a 32-bit field (the byte
image written by `struct.pack('>i', v)` for in-range `v`). -/
def i32bytes (v : ℤ) : List ℕ :=
  let u := (v % 4294967296).toNat
  [u / 16777216 % 256, u / 65536 % 256, u / 256 % 256, u % 256]

/-- Model of `struct.pack('>h', v)`: the two bytes, or `struct.error` when
`v` is outside the signed 16-bit range. -/
def pack_i16 (v : ℤ) : Except EncodingError (List ℕ) :=
  if -32768 ≤ v ∧ v < 32768 then .ok (i16bytes v) else .error .fieldOutOfRange

/-- Model of `struct.pack('>i', v)`: the four bytes, or `struct.error` when
`v` is outside the signed 32-bit range. -/
def pack_i32 (v : ℤ) : Except EncodingError (List ℕ) :=
  if -2147483648 ≤ v ∧ v < 2147483648 then .ok (i32bytes v) else .error .fieldOutOfRange

/-- Model of `struct.unpack('>h', b)` on a two-byte buffer. -/
def unpack_i16 (b : List ℕ) : ℤ :=
  match b with
  | [b0, b1] =>
    let u := b0 * 256 + b1
    if u < 32768 then (u : ℤ) else (u : ℤ) - 65536
  | _ => 0

/-- Model of `struct.unpack('>i', b)` on a four-byte buffer. -/
def unpack_i32 (b : List ℕ) : ℤ :=
  match b with
  | [b0, b1, b2, b3] =>
    let u := ((b0 * 256 + b1) * 256 + b2) * 256 + b3
    if u < 2147483648 then (u : ℤ) else (u : ℤ) - 4294967296
  | _ => 0

/-- Model of `file.read(n)` followed by a `struct.unpack` that requires
exactly `n` bytes: the first `n` bytes and the remainder, or `none` when
fewer than `n` bytes remain (`read` returns what is left and `unpack`
raises on the short buffer). -/
def readBytes (n : ℕ) (s : List ℕ) : Option (List ℕ × List ℕ) :=
  if n ≤ s.length then some (s.take n, s.drop n) else none

/-- Model of `struct.unpack('>{n}h', buffer)` on a `2*n`-byte buffer:
successive 16-bit values. -/
def chunkIds : List ℕ → List ℤ
  | b0 :: b1 :: rest => unpack_i16 [b0, b1] :: chunkIds rest
  | _ => []

/-- Model of the body of `StructPolicy.dump` for one `(key, docs)` entry:
pack the key's byte length, the key bytes, the postings-list length and
each document id, in this order, failing on the first out-of-range
field. -/
def dumpEntry (key : String) (docs : List ℤ) : Except EncodingError (List ℕ) := do
  let klenB ← pack_i16 ((strBytes key).length : ℤ)
  let dlenB ← pack_i16 (docs.length : ℤ)
  let idsB ← docs.mapM pack_i16
  .ok (klenB ++ strBytes key ++ dlenB ++ idsB.flatten)

/-- Model of `StructPolicy.dump`: the 32-bit term count followed by each
entry in mapping order, as the byte stream written to the file. -/
def dump (m : Term2Doc) : Except EncodingError (List ℕ) := do
  let cntB ← pack_i32 (m.length : ℤ)
  let entries ← m.mapM (fun p => dumpEntry p.1 p.2)
  .ok (cntB ++ entries.flatten)

/-- Model of the body of `StructPolicy.load` for one entry: read the 16-bit
key length, the key bytes (decoded as UTF-8), the 16-bit list length and
that many 16-bit document ids; returns the entry and the remaining
stream. -/
def loadEntry (s : List ℕ) : Except DecodingError ((String × List ℤ) × List ℕ) := do
  let (klb, s1) ← match readBytes 2 s with
    | some r => pure r
    | none => throw .truncated
  let klen := unpack_i16 klb
  if klen < 0 then throw .badFormat else do
  let (kb, s2) ← match readBytes klen.toNat s1 with
    | some r => pure r
    | none => throw .truncated
  let key ← match utf8ToStr kb with
    | some k => pure k
    | none => throw .badUTF8
  let (dlb, s3) ← match readBytes 2 s2 with
    | some r => pure r
    | none => throw .truncated
  let dlen := unpack_i16 dlb
  if dlen < 0 then throw .badFormat else do
  let (ib, s4) ← match readBytes (2 * dlen.toNat) s3 with
    | some r => pure r
    | none => throw .truncated
  .ok ((key, chunkIds ib), s4)

/-- Loop of `StructPolicy.load` over the declared number of entries,
threading the remaining stream. -/
def loadLoop : ℕ → List ℕ → Except DecodingError (Term2Doc × List ℕ)
  | 0, s => .ok ([], s)
  | n + 1, s => do
    let (e, s1) ← loadEntry s
    let (rest, s2) ← loadLoop n s1
    .ok (e :: rest, s2)

/-- Model of `StructPolicy.load`: read the 32-bit entry count and then that
many entries (a negative count, like Python's `range`, yields an empty
loop); trailing bytes are ignored. -/
def load (s : List ℕ) : Except DecodingError Term2Doc := do
  let (cb, s1) ← match readBytes 4 s with
    | some r => pure r
    | none => throw .truncated
  let cnt := unpack_i32 cb
  let (m, _) ← loadLoop cnt.toNat s1
  .ok m

/-- Byte layout of one entry as described by the spec (section 4.3):
`[int16 L][L bytes term][int16 M][M × int16 id]`, big-endian. -/
def entryLayout (key : String) (docs : List ℤ) : List ℕ :=
  i16bytes ((strBytes key).length : ℤ) ++ strBytes key ++
    i16bytes ((docs.length : ℕ) : ℤ) ++ (docs.map i16bytes).flatten

/-- Byte layout of a whole dumped file as described by the spec (section
4.3): `[int32 N]` followed by the `N` entries in mapping order. -/
def fileLayout (m : Term2Doc) : List ℕ :=
  i32bytes ((m.length : ℕ) : ℤ) ++ (m.map (fun p => entryLayout p.1 p.2)).flatten

/-- Field bounds of one entry: term byte length and postings-list length fit
in a signed 16-bit field, and every document id is in the signed 16-bit
range. -/
def entryInBounds (key : String) (docs : List ℤ) : Prop :=
  (strBytes key).length ≤ 32767 ∧ docs.length ≤ 32767 ∧
    ∀ d ∈ docs, -32768 ≤ d ∧ d < 32768

instance (key : String) (docs : List ℤ) : Decidable (entryInBounds key docs) := by
  unfold entryInBounds; infer_instance

/-- Field bounds of a mapping: the term count fits in a signed 32-bit field
and every entry satisfies `entryInBounds`. -/
def inBounds (m : Term2Doc) : Prop :=
  m.length < 2147483648 ∧ ∀ p ∈ m, entryInBounds p.1 p.2

instance (m : Term2Doc) : Decidable (inBounds m) := by
  unfold inBounds; infer_instance

/-- Keys of the association list are pairwise distinct (always true of a
Python dict). -/
def keysNodup (m : Term2Doc) : Prop :=
  (m.map Prod.fst).Nodup

instance (m : Term2Doc) : Decidable (keysNodup m) := by
  unfold keysNodup; infer_instance

/-- Whether an `Except` computation ended in an error. -/
def isErr {ε α : Type} : Except ε α → Bool
  | .error _ => true
  | .ok _ => false

/-! Helper lemmas about lookups, the builder and the query loops. -/

theorem dictLookup_nil (k : String) : dictLookup [] k = none := rfl

theorem postings_nil (k : String) : postings [] k = [] := rfl

theorem postings_eq_nil_of_lookup_none {m : Term2Doc} {k : String}
    (h : dictLookup m k = none) : postings m k = [] := by
  simp [postings, h]

theorem postings_ddAppend_same (m : Term2Doc) (k : String) (v : ℤ) :
    postings (ddAppend m k v) k = postings m k ++ [v] := by
  induction m with
  | nil => simp [ddAppend, postings, dictLookup]
  | cons p rest ih =>
    by_cases hp : p.1 = k
    · simp [ddAppend, hp, postings, dictLookup, List.find?]
    · have hb : (p.1 == k) = false := by simpa using hp
      simpa [ddAppend, hp, postings, dictLookup, List.find?, hb] using ih

theorem postings_ddAppend_ne (m : Term2Doc) (k : String) (v : ℤ) (t : String)
    (h : t ≠ k) : postings (ddAppend m k v) t = postings m t := by
  induction m with
  | nil =>
    have hb : (k == t) = false := by simpa using (Ne.symm h)
    simp [ddAppend, postings, dictLookup, List.find?, hb]
  | cons p rest ih =>
    by_cases hp : p.1 = k
    · have hkt : (k == t) = false := by simpa using fun he => h he.symm
      simp [ddAppend, hp, postings, dictLookup, List.find?, hkt]
    · by_cases ht : p.1 = t
      · have htk : ¬ t = k := fun he => h he
        have hb : (p.1 == t) = true := by simpa using ht
        simp [ddAppend, hp, postings, dictLookup, List.find?, hb, htk]
      · have hb : (p.1 == t) = false := by simpa using ht
        simpa [ddAppend, hp, postings, dictLookup, List.find?, hb] using ih

theorem buildWord_postings_same (m : Term2Doc) (d : ℤ) (w : String)
    (hd : d ∉ postings m w) :
    postings (buildWord m d w) w = postings m w ++ [d] := by
  unfold buildWord
  cases h : dictLookup m w with
  | none =>
    have h0 : postings m w = [] := postings_eq_nil_of_lookup_none h
    have h1 : postings (ddAppend m w d) w = [d] := by
      rw [postings_ddAppend_same, h0]; rfl
    simp [h, h1, h0]
  | some v =>
    have hd' : d ∉ postings m w := hd
    simp only [h, Option.isNone_some, if_neg Bool.false_ne_true, ite_false]
    simp [postings_ddAppend_same, if_neg hd']

theorem buildWord_postings_ne (m : Term2Doc) (d : ℤ) (w t : String) (h : t ≠ w) :
    postings (buildWord m d w) t = postings m t := by
  unfold buildWord
  cases hw : dictLookup m w with
  | none =>
    by_cases hmem : d ∈ postings (ddAppend m w d) w
    · simp [hw, hmem, postings_ddAppend_ne _ _ _ _ h]
    · simp [hw, hmem, postings_ddAppend_ne _ _ _ _ h]
  | some v =>
    by_cases hmem : d ∈ postings m w
    · simp [hw, hmem]
    · simp [hw, hmem, postings_ddAppend_ne _ _ _ _ h]

theorem buildDoc_postings (d : ℤ) :
    ∀ (ws : List String) (m : Term2Doc), ws.Nodup →
      (∀ w ∈ ws, d ∉ postings m w) → ∀ t,
      postings (ws.foldl (fun m' w => buildWord m' d w) m) t =
        postings m t ++ (if t ∈ ws then [d] else []) := by
  intro ws
  induction ws with
  | nil => intro m _ _ t; simp
  | cons w ws ih =>
    intro m hnd hfresh t
    have hw : d ∉ postings m w := hfresh w (by simp)
    have hnd' : ws.Nodup := hnd.of_cons
    have hwmem : w ∉ ws := by
      have := List.nodup_cons.mp hnd; exact this.1
    have hfresh' : ∀ w' ∈ ws, d ∉ postings (buildWord m d w) w' := by
      intro w' hw'
      have hne : w' ≠ w := fun he => hwmem (he ▸ hw')
      rw [buildWord_postings_ne m d w w' hne]
      exact hfresh w' (by simp [hw'])
    have step : (w :: ws).foldl (fun m' x => buildWord m' d x) m =
        ws.foldl (fun m' x => buildWord m' d x) (buildWord m d w) := by
      simp
    rw [step, ih (buildWord m d w) hnd' hfresh' t]
    by_cases ht : t = w
    · subst ht
      have htws : t ∉ ws := hwmem
      simp [buildWord_postings_same m d t hw, htws]
    · rw [buildWord_postings_ne m d w t ht]
      by_cases hts : t ∈ ws <;> simp [hts, ht]

theorem build_postings :
    ∀ (documents : List (ℤ × String)) (m : Term2Doc),
      (documents.map Prod.fst).Nodup →
      (∀ p ∈ documents, ∀ t, p.1 ∉ postings m t) → ∀ t,
      postings (documents.foldl (fun m' p => buildDoc m' p.1 p.2) m) t =
        postings m t ++
          (documents.filter (fun p => decide (t ∈ tokenSet p.2))).map Prod.fst := by
  intro documents
  induction documents with
  | nil => intro m _ _ t; simp
  | cons p docs ih =>
    intro m hnd hfresh t
    have hnd2 : p.1 ∉ docs.map Prod.fst ∧ (docs.map Prod.fst).Nodup := by
      rw [List.map_cons, List.nodup_cons] at hnd; exact hnd
    have hndtail : (docs.map Prod.fst).Nodup := hnd2.2
    have hhead : p.1 ∉ docs.map Prod.fst := hnd2.1
    have hsetnd : (tokenSet p.2).Nodup := List.nodup_dedup _
    have hfr : ∀ w ∈ tokenSet p.2, p.1 ∉ postings m w := by
      intro w _; exact hfresh p (by simp) w
    have hm1 := buildDoc_postings p.1 (tokenSet p.2) m hsetnd hfr
    have hfresh' : ∀ q ∈ docs, ∀ t', q.1 ∉ postings (buildDoc m p.1 p.2) t' := by
      intro q hq t'
      have hq1 : q.1 ≠ p.1 := by
        intro he
        exact hhead (he ▸ List.mem_map_of_mem Prod.fst hq)
      rw [show buildDoc m p.1 p.2 =
          (tokenSet p.2).foldl (fun m' w => buildWord m' p.1 w) m from rfl, hm1 t']
      intro hmem
      rcases List.mem_append.mp hmem with h1 | h2
      · exact hfresh q (by simp [hq]) t' h1
      · by_cases hts : t' ∈ tokenSet p.2 <;> simp [hts] at h2
        exact hq1 h2
    have step : ((p :: docs).foldl (fun m' q => buildDoc m' q.1 q.2) m) =
        docs.foldl (fun m' q => buildDoc m' q.1 q.2) (buildDoc m p.1 p.2) := by
      simp
    rw [step, ih (buildDoc m p.1 p.2) hndtail hfresh' t,
      show buildDoc m p.1 p.2 =
        (tokenSet p.2).foldl (fun m' w => buildWord m' p.1 w) m from rfl, hm1 t]
    by_cases hts : t ∈ tokenSet p.2 <;> simp [hts, List.filter_cons]

theorem queryHW2Loop_skips (m : Term2Doc) :
    ∀ (ws : List String) (s : Finset ℤ) (first : Bool),
      queryHW2Loop m ws s first =
        queryHW2Loop m (ws.filter (fun t => (dictLookup m t).isSome)) s first := by
  intro ws
  induction ws with
  | nil => intro s first; rfl
  | cons w ws ih =>
    intro s first
    cases h : dictLookup m w with
    | none => simp [queryHW2Loop, h, List.filter_cons, ih]
    | some docs => simp [queryHW2Loop, h, List.filter_cons, ih]

theorem queryHW1Loop_missing (m : Term2Doc) :
    ∀ (ws : List String) (s : Finset ℤ) (first : Bool),
      (∃ t ∈ ws, dictLookup m t = none) →
      queryHW1Loop m ws s first = none := by
  intro ws
  induction ws with
  | nil => intro s first h; simp at h
  | cons w ws ih =>
    intro s first h
    cases hw : dictLookup m w with
    | none => simp [queryHW1Loop, hw]
    | some docs =>
      rcases h with ⟨t, htmem, htnone⟩
      have htl : t ∈ ws := by
        rcases List.mem_cons.mp htmem with h1 | h1
        · exact absurd htnone (by simp [h1, hw])
        · exact h1
      simp [queryHW1Loop, hw, ih _ false ⟨t, htl, htnone⟩]

theorem dictLookupDyn_str (m : Term2Doc) (t : String) :
    dictLookupDyn m (.pyStr t) = dictLookup m t := by
  induction m with
  | nil => rfl
  | cons p rest ih =>
    by_cases hp : p.1 = t
    · simp [dictLookupDyn, dictLookup, List.find?, keyMatches, hp]
    · have h1 : (t == p.1) = false := by simpa using (Ne.symm hp)
      have h2 : (p.1 == t) = false := by simpa using hp
      simpa [dictLookupDyn, dictLookup, List.find?, keyMatches, h1, h2] using ih

theorem queryDynLoop_strings (m : Term2Doc) :
    ∀ (ts : List String) (s : Finset ℤ) (first : Bool),
      queryDynLoop m (ts.map .pyStr) s first = queryHW2Loop m ts s first := by
  intro ts
  induction ts with
  | nil => intro s first; rfl
  | cons t ts ih =>
    intro s first
    cases h : dictLookup m t with
    | none => simp [queryDynLoop, queryHW2Loop, dictLookupDyn_str, h, ih]
    | some docs => simp [queryDynLoop, queryHW2Loop, dictLookupDyn_str, h, ih]

theorem queryHW2StLoop_frame (m : Term2Doc) :
    ∀ (ws : List String) (s : Finset ℤ) (first : Bool),
      queryHW2StLoop m ws s first = (queryHW2Loop m ws s first, m) := by
  intro ws
  induction ws with
  | nil => intro s first; rfl
  | cons w ws ih =>
    intro s first
    cases h : dictLookup m w with
    | none => simp [queryHW2StLoop, queryHW2Loop, h, ih, ddGetItem]
    | some docs => simp [queryHW2StLoop, queryHW2Loop, h, ih, ddGetItem]

/-! Claim theorems about the builder and the query evaluator. -/

/-- Claim C1, counterexample: the HW2 `query` does not follow the strict
missing-term policy. On the index `{"a": [1]}` the query `["b", "a"]`
contains the missing term `"b"`, yet the result set is nonempty (the
missing term is skipped), so the strict policy is not applied uniformly
across the two `query` variants. -/
theorem C1_cx :
    dictLookup [("a", [1])] "b" = none ∧
    "b" ∈ (["b", "a"] : List String) ∧
    queryHW2Set [("a", [1])] ["b", "a"] ≠ ∅ := by decide

/-- Claim C1 (amended): the HW1 `query` implements the strict policy — any
query containing a term absent from the postings mapping returns the
empty result — while the HW2 `query` instead skips missing terms (its
result equals the query restricted to the found terms); the policy is
therefore not uniform across the observed variants. -/
theorem C1_thm (m : Term2Doc) (ts : List String) :
    ((∃ t ∈ ts, dictLookup m t = none) → queryHW1 m ts = []) ∧
    queryHW2Set m ts =
      queryHW2Set m (ts.filter (fun t => (dictLookup m t).isSome)) := by
  constructor
  · intro h
    unfold queryHW1
    rw [queryHW1Loop_missing m ts ∅ true h]
  · exact queryHW2Loop_skips m ts ∅ true

/-- Claim C1, witness: the strict branch of the amended claim applied to the
index `{"a": [1]}` and the query `["b"]`. -/
theorem C1_wit :
    (∃ t ∈ (["b"] : List String), dictLookup [("a", [1])] t = none) ∧
    queryHW1 [("a", [1])] ["b"] = [] :=
  ⟨⟨"b", by decide, by decide⟩, (C1_thm [("a", [1])] ["b"]).1 ⟨"b", by decide, by decide⟩⟩

/-- Claim C2, counterexample: the HW2 `query` returns `list(doc_id)` for a
set `doc_id`, i.e. an arbitrary enumeration of the result set; the
enumeration `[123, 37]` of the result set of the query `["A_word"]` is a
valid set enumeration but is not in ascending order, so the claimed
sortedness fails for the HW2 variant. -/
theorem C2_cx :
    isSetEnum [123, 37] (queryHW2Set [("A_word", [123, 37])] ["A_word"]) ∧
    ¬ List.Sorted (· ≤ ·) ([123, 37] : List ℤ) := by decide

/-- Claim C2 (amended): the HW1 `query` returns a deduplicated list in
ascending sorted order; the HW2 `query` returns a deduplicated
enumeration of its result set (each id exactly once), but in unspecified
set-iteration order rather than ascending order. -/
theorem C2_thm :
    (∀ (m : Term2Doc) (ts : List String),
        List.Sorted (· ≤ ·) (queryHW1 m ts) ∧ (queryHW1 m ts).Nodup) ∧
    (∀ (m : Term2Doc) (ts : List String) (l : List ℤ),
        isSetEnum l (queryHW2Set m ts) → l.Nodup) := by
  constructor
  · intro m ts
    unfold queryHW1
    cases queryHW1Loop m ts ∅ true with
    | none => exact ⟨List.sorted_nil, List.nodup_nil⟩
    | some s => exact ⟨Finset.sort_sorted _ _, Finset.sort_nodup _ _⟩
  · intro m ts l h
    exact h.1

/-- Claim C2, witness: the deduplication part of the amended claim applied
to the enumeration `[37, 123]` of the result set of `["A_word"]`. -/
theorem C2_wit :
    isSetEnum [37, 123] (queryHW2Set [("A_word", [123, 37])] ["A_word"]) ∧
    ([37, 123] : List ℤ).Nodup :=
  ⟨by decide, C2_thm.2 [("A_word", [123, 37])] ["A_word"] [37, 123] (by decide)⟩

/-- Claim C6: for distinct document ids, the built postings mapping sends
each term to the ids of exactly the documents whose whitespace-token set
contains the term, in input (first-seen) order, each id exactly once. -/
theorem C6_thm (documents : List (ℤ × String))
    (hnd : (documents.map Prod.fst).Nodup) (t : String) :
    postings (buildIdx documents) t =
      (documents.filter (fun p => decide (t ∈ pyTokens p.2))).map Prod.fst ∧
    (postings (buildIdx documents) t).Nodup := by
  have hfilter : documents.filter (fun p => decide (t ∈ tokenSet p.2)) =
      documents.filter (fun p => decide (t ∈ pyTokens p.2)) := by
    apply List.filter_congr
    intro p _
    simp [tokenSet, List.mem_dedup]
  have hmain := build_postings documents [] hnd (fun p _ t' => by simp [postings_nil]) t
  have h1 : postings (buildIdx documents) t =
      (documents.filter (fun p => decide (t ∈ pyTokens p.2))).map Prod.fst := by
    unfold buildIdx
    rw [hmain, postings_nil, hfilter]
    rfl
  refine ⟨h1, ?_⟩
  rw [h1]
  exact List.Nodup.sublist ((List.filter_sublist documents).map Prod.fst) hnd

/-- Claim C6, witness: the build invariant applied to a two-document corpus
in which the term `b` occurs in both documents (and twice in the
second). -/
theorem C6_wit :
    postings (buildIdx [(123, "a b"), (37, "b c b")]) "b" =
      ([((123 : ℤ), "a b"), (37, "b c b")].filter
        (fun p => decide ("b" ∈ pyTokens p.2))).map Prod.fst ∧
    (postings (buildIdx [(123, "a b"), (37, "b c b")]) "b").Nodup :=
  C6_thm [(123, "a b"), (37, "b c b")] (by decide) "b"

/-- Claim C7: building from an empty corpus yields an empty postings
mapping, querying the resulting index for any single term returns the
empty result in both `query` variants, and a document with empty text
contributes nothing (no error is ever raised: the builder and the
queries are total functions). -/
theorem C7_thm :
    buildIdx [] = [] ∧
    (∀ t, queryHW1 (buildIdx []) [t] = [] ∧ queryHW2Set (buildIdx []) [t] = ∅) ∧
    (∀ d : ℤ, buildIdx [(d, "")] = []) := by
  refine ⟨rfl, fun _ => ⟨rfl, rfl⟩, fun d => ?_⟩
  have h : tokenSet "" = [] := by decide
  simp [buildIdx, buildDoc, h]

/-- Claim C8, counterexample: `query` only asserts that its argument is a
`list` and never checks the element types, so the list `[1]` — not a
sequence of strings — is accepted and the query returns normally,
refuting the claimed "if and only if". -/
theorem C8_cx :
    isStringSeq (PyArg.pyList [PyVal.pyInt 1]) = false ∧
    queryDyn [] (PyArg.pyList [PyVal.pyInt 1]) = .ok ∅ := by decide

/-- Claim C8 (amended): `query` raises its validation error exactly when the
argument is not a list (element types are not checked; a non-list
sequence of strings is also rejected), and on any list of strings —
including terms absent from the index — it returns normally with the
HW2 result set. -/
theorem C8_thm :
    (∀ (m : Term2Doc) (arg : PyArg),
        isErr (queryDyn m arg) = false ↔ ∃ xs, arg = PyArg.pyList xs) ∧
    (∀ (m : Term2Doc) (ts : List String),
        queryDyn m (PyArg.pyList (ts.map PyVal.pyStr)) = .ok (queryHW2Set m ts)) := by
  constructor
  · intro m arg
    cases arg with
    | pyList xs => simp [queryDyn, isErr]
    | pyTuple xs => simp [queryDyn, isErr]
    | pyNone => simp [queryDyn, isErr]
  · intro m ts
    simp [queryDyn, queryHW2Set, queryDynLoop_strings]

/-- Claim C9: both observed `query` variants return the empty result on an
empty list of terms. -/
theorem C9_thm (m : Term2Doc) :
    queryHW1 m [] = [] ∧ queryHW2Set m [] = ∅ := by
  refine ⟨?_, rfl⟩
  simp [queryHW1, queryHW1Loop, Finset.sort_empty]

/-- Claim C10: the HW2 `query` never modifies `term2doc` — in the
state-passing model of the `defaultdict`, where subscripting an absent
key would insert an empty entry, the membership guard ensures the final
dictionary state equals the initial one (and the result is the usual
query set). -/
theorem C10_thm (m : Term2Doc) (ws : List String) :
    queryHW2St m ws = (queryHW2Set m ws, m) :=
  queryHW2StLoop_frame m ws ∅ true

/-! Helper lemmas for the binary codec. -/

@[simp] theorem ok_bind {ε α β : Type} (a : α) (f : α → Except ε β) :
    (Except.ok a >>= f) = f a := rfl

@[simp] theorem error_bind {ε α β : Type} (e : ε) (f : α → Except ε β) :
    ((Except.error e : Except ε α) >>= f) = Except.error e := rfl

@[simp] theorem throw_eq_error {ε α : Type} (e : ε) :
    (throw e : Except ε α) = Except.error e := rfl

@[simp] theorem pure_eq_ok {ε α : Type} (a : α) :
    (pure a : Except ε α) = Except.ok a := rfl

theorem readBytes_exact {n : ℕ} (a b : List ℕ) (h : a.length = n) :
    readBytes n (a ++ b) = some (a, b) := by
  subst h
  simp [readBytes, List.take_left, List.drop_left]

theorem readBytes_short {n : ℕ} {s : List ℕ} (h : s.length < n) :
    readBytes n s = none := by
  unfold readBytes
  rw [if_neg]
  omega

theorem take_append_ge (a b : List ℕ) (j : ℕ) (h : a.length ≤ j) :
    (a ++ b).take j = a ++ b.take (j - a.length) := by
  rw [List.take_append_eq_append_take, List.take_of_length_le h]

theorem take_append_le (a b : List ℕ) (j : ℕ) (h : j ≤ a.length) :
    (a ++ b).take j = a.take j := by
  rw [List.take_append_eq_append_take, show j - a.length = 0 from by omega]
  simp

theorem length_i16bytes (v : ℤ) : (i16bytes v).length = 2 := rfl

theorem length_i32bytes (v : ℤ) : (i32bytes v).length = 4 := rfl

theorem unpack_pack_i16 (v : ℤ) (h1 : -32768 ≤ v) (h2 : v < 32768) :
    unpack_i16 (i16bytes v) = v := by
  simp only [i16bytes, unpack_i16]
  omega

theorem unpack_pack_i32 (v : ℤ) (h1 : -2147483648 ≤ v) (h2 : v < 2147483648) :
    unpack_i32 (i32bytes v) = v := by
  simp only [i32bytes, unpack_i32]
  omega

theorem pack_i16_ok (v : ℤ) (h1 : -32768 ≤ v) (h2 : v < 32768) :
    pack_i16 v = .ok (i16bytes v) := by
  simp [pack_i16, h1, h2]

theorem pack_i32_ok (v : ℤ) (h1 : -2147483648 ≤ v) (h2 : v < 2147483648) :
    pack_i32 v = .ok (i32bytes v) := by
  simp [pack_i32, h1, h2]

theorem pack_i16_ok_inv {v : ℤ} {b : List ℕ} (h : pack_i16 v = .ok b) :
    (-32768 ≤ v ∧ v < 32768) ∧ b = i16bytes v := by
  by_cases hb : -32768 ≤ v ∧ v < 32768
  · rw [pack_i16, if_pos hb] at h
    cases h
    exact ⟨hb, rfl⟩
  · rw [pack_i16, if_neg hb] at h
    cases h

theorem pack_i32_ok_inv {v : ℤ} {b : List ℕ} (h : pack_i32 v = .ok b) :
    (-2147483648 ≤ v ∧ v < 2147483648) ∧ b = i32bytes v := by
  by_cases hb : -2147483648 ≤ v ∧ v < 2147483648
  · rw [pack_i32, if_pos hb] at h
    cases h
    exact ⟨hb, rfl⟩
  · rw [pack_i32, if_neg hb] at h
    cases h

theorem mapM_pack_i16_ok {docs : List ℤ}
    (h : ∀ d ∈ docs, -32768 ≤ d ∧ d < 32768) :
    docs.mapM pack_i16 = .ok (docs.map i16bytes) := by
  induction docs with
  | nil => rw [List.mapM_nil]; simp
  | cons d ds ih =>
    have hd := h d (by simp)
    rw [List.mapM_cons, pack_i16_ok d hd.1 hd.2]
    simp only [ok_bind]
    rw [ih (fun x hx => h x (by simp [hx]))]
    simp

theorem mapM_pack_i16_ok_inv {docs : List ℤ} {l : List (List ℕ)}
    (h : docs.mapM pack_i16 = .ok l) :
    (∀ d ∈ docs, -32768 ≤ d ∧ d < 32768) ∧ l = docs.map i16bytes := by
  induction docs generalizing l with
  | nil =>
    rw [List.mapM_nil] at h
    cases h
    exact ⟨by simp, rfl⟩
  | cons d ds ih =>
    rw [List.mapM_cons] at h
    cases hd : pack_i16 d with
    | error e => rw [hd] at h; simp at h
    | ok b =>
      rw [hd] at h
      simp only [ok_bind] at h
      cases hds : ds.mapM pack_i16 with
      | error e => rw [hds] at h; simp at h
      | ok bs =>
        rw [hds] at h
        simp only [ok_bind, pure_eq_ok, Except.ok.injEq] at h
        obtain ⟨hdb, hbeq⟩ := pack_i16_ok_inv hd
        obtain ⟨hall, hmap⟩ := ih hds
        constructor
        · intro x hx
          rcases List.mem_cons.mp hx with h1 | h1
          · exact h1 ▸ hdb
          · exact hall x h1
        · rw [← h, hbeq, hmap]
          rfl

theorem isCont_iff (b : ℕ) : isCont b ↔ (128 ≤ b ∧ b < 192) := Iff.rfl

theorem mkChar_toNat (c : Char) : mkChar c.toNat = some c := by
  have hv : c.toNat < 55296 ∨ (57343 < c.toNat ∧ c.toNat < 1114112) := by
    have h := c.valid
    simpa [Char.toNat, UInt32.isValidChar, Nat.isValidChar] using h
  rw [mkChar, if_pos hv, Char.ofNat_toNat]

theorem char_toNat_lt (c : Char) : c.toNat < 1114112 := by
  have hv : c.toNat < 55296 ∨ (57343 < c.toNat ∧ c.toNat < 1114112) := by
    have h := c.valid
    simpa [Char.toNat, UInt32.isValidChar, Nat.isValidChar] using h
  rcases hv with h | h <;> omega

theorem decodeOne_encodeChar (c : Char) (rest : List ℕ) :
    decodeOne (encodeChar c ++ rest) = some (c, rest) := by
  have hmk : mkChar c.toNat = some c := mkChar_toNat c
  have hlt : c.toNat < 1114112 := char_toNat_lt c
  by_cases h1 : c.toNat < 128
  · rw [show encodeChar c = [c.toNat] from by rw [encodeChar, if_pos h1]]
    simp only [List.cons_append, List.nil_append, decodeOne]
    rw [if_pos h1, hmk]
    rfl
  · by_cases h2 : c.toNat < 2048
    · rw [show encodeChar c = [192 + c.toNat / 64, 128 + c.toNat % 64] from by
        rw [encodeChar, if_neg h1, if_pos h2]]
      simp only [List.cons_append, List.nil_append, decodeOne, List.length_cons,
        List.getD_cons_zero, List.drop_succ_cons, List.drop_zero]
      rw [if_neg (by omega), if_neg (by omega), if_pos (by omega), if_pos (by omega),
        if_pos ((isCont_iff _).mpr (by omega)),
        show (192 + c.toNat / 64 - 192) * 64 + (128 + c.toNat % 64 - 128) = c.toNat from by
          omega,
        hmk]
      rfl
    · by_cases h3 : c.toNat < 65536
      · rw [show encodeChar c = [224 + c.toNat / 4096, 128 + c.toNat / 64 % 64,
            128 + c.toNat % 64] from by rw [encodeChar, if_neg h1, if_neg h2, if_pos h3]]
        simp only [List.cons_append, List.nil_append, decodeOne, List.length_cons,
          List.getD_cons_zero, List.getD_cons_succ, List.drop_succ_cons, List.drop_zero]
        rw [if_neg (by omega), if_neg (by omega), if_neg (by omega), if_pos (by omega),
          if_pos (by omega),
          if_pos ⟨(isCont_iff _).mpr (by omega), (isCont_iff _).mpr (by omega)⟩,
          if_pos (by omega),
          show (224 + c.toNat / 4096 - 224) * 4096 + (128 + c.toNat / 64 % 64 - 128) * 64 +
            (128 + c.toNat % 64 - 128) = c.toNat from by omega,
          hmk]
        rfl
      · rw [show encodeChar c = [240 + c.toNat / 262144, 128 + c.toNat / 4096 % 64,
            128 + c.toNat / 64 % 64, 128 + c.toNat % 64] from by
            rw [encodeChar, if_neg h1, if_neg h2, if_neg h3]]
        simp only [List.cons_append, List.nil_append, decodeOne, List.length_cons,
          List.getD_cons_zero, List.getD_cons_succ, List.drop_succ_cons, List.drop_zero]
        rw [if_neg (by omega), if_neg (by omega), if_neg (by omega), if_neg (by omega),
          if_pos (by omega), if_pos (by omega),
          if_pos ⟨(isCont_iff _).mpr (by omega), (isCont_iff _).mpr (by omega),
            (isCont_iff _).mpr (by omega)⟩,
          if_pos (by omega),
          show (240 + c.toNat / 262144 - 240) * 262144 + (128 + c.toNat / 4096 % 64 - 128) * 4096 +
            (128 + c.toNat / 64 % 64 - 128) * 64 + (128 + c.toNat % 64 - 128) = c.toNat from by
              omega,
          hmk]
        rfl

theorem encodeChar_ne_nil (c : Char) : encodeChar c ≠ [] := by
  rw [encodeChar]
  split_ifs <;> simp

theorem encodeChar_length_pos (c : Char) : 1 ≤ (encodeChar c).length := by
  rcases h : encodeChar c with _ | ⟨b, bs⟩
  · exact absurd h (encodeChar_ne_nil c)
  · simp

theorem decA_char (c : Char) (rest : List ℕ) (fuel : ℕ) :
    decA (fuel + 1) (encodeChar c ++ rest) =
      (decA fuel rest).map (fun cs => c :: cs) := by
  obtain ⟨b, bs, he⟩ : ∃ b bs, encodeChar c ++ rest = b :: bs := by
    rcases h : encodeChar c with _ | ⟨x, xs⟩
    · exact absurd h (encodeChar_ne_nil c)
    · exact ⟨x, xs ++ rest, by simp⟩
  rw [he, decA, ← he, decodeOne_encodeChar]

theorem decA_flatten (cs : List Char) :
    ∀ fuel : ℕ, ((cs.map encodeChar).flatten).length ≤ fuel →
      decA fuel ((cs.map encodeChar).flatten) = some cs := by
  induction cs with
  | nil =>
    intro fuel _
    cases fuel <;> rfl
  | cons c cs ih =>
    intro fuel hf
    rw [List.map_cons, List.flatten_cons] at hf ⊢
    have h1 : 1 ≤ (encodeChar c).length := encodeChar_length_pos c
    rw [List.length_append] at hf
    cases fuel with
    | zero => omega
    | succ f =>
      rw [decA_char, ih f (by omega)]
      rfl

theorem utf8ToStr_strBytes (s : String) : utf8ToStr (strBytes s) = some s := by
  obtain ⟨cs⟩ := s
  have hd : (String.mk cs).data = cs := rfl
  rw [utf8ToStr, decodeUtf8, strBytes, hd, decA_flatten cs _ (le_refl _)]
  rfl

theorem flatten_i16_length (docs : List ℤ) :
    ((docs.map i16bytes).flatten).length = 2 * docs.length := by
  induction docs with
  | nil => rfl
  | cons d ds ih =>
    rw [List.map_cons, List.flatten_cons, List.length_append, length_i16bytes, ih,
      List.length_cons]
    omega

theorem chunkIds_flatten (docs : List ℤ)
    (h : ∀ d ∈ docs, -32768 ≤ d ∧ d < 32768) :
    chunkIds ((docs.map i16bytes).flatten) = docs := by
  induction docs with
  | nil => rfl
  | cons d ds ih =>
    have hd := h d (by simp)
    rw [List.map_cons, List.flatten_cons,
      show i16bytes d ++ (ds.map i16bytes).flatten =
        ((d % 65536).toNat / 256) :: ((d % 65536).toNat % 256) ::
          (ds.map i16bytes).flatten from rfl,
      chunkIds,
      show unpack_i16 [(d % 65536).toNat / 256, (d % 65536).toNat % 256] = d from
        unpack_pack_i16 d hd.1 hd.2,
      ih (fun x hx => h x (by simp [hx]))]

theorem dumpEntry_ok {k : String} {docs : List ℤ} (hb : entryInBounds k docs) :
    dumpEntry k docs = .ok (entryLayout k docs) := by
  obtain ⟨hkl, hdl, hids⟩ := hb
  rw [dumpEntry, pack_i16_ok _ (by omega) (by omega), ok_bind,
    pack_i16_ok _ (by omega) (by omega), ok_bind, mapM_pack_i16_ok hids, ok_bind]
  rfl

theorem mapM_dumpEntry_ok {m : Term2Doc} (h : ∀ p ∈ m, entryInBounds p.1 p.2) :
    m.mapM (fun p => dumpEntry p.1 p.2) = .ok (m.map (fun p => entryLayout p.1 p.2)) := by
  induction m with
  | nil => rw [List.mapM_nil]; rfl
  | cons p ps ih =>
    rw [List.mapM_cons, dumpEntry_ok (h p (by simp)), ok_bind,
      ih (fun q hq => h q (by simp [hq])), ok_bind, List.map_cons]
    rfl

theorem dump_ok {m : Term2Doc} (hb : inBounds m) : dump m = .ok (fileLayout m) := by
  obtain ⟨hcnt, hises⟩ := hb
  rw [dump, pack_i32_ok _ (by omega) (by omega), ok_bind, mapM_dumpEntry_ok hises, ok_bind]
  rfl

theorem loadEntry_layout (k : String) (docs : List ℤ) (rest : List ℕ)
    (hb : entryInBounds k docs) :
    loadEntry (entryLayout k docs ++ rest) = .ok ((k, docs), rest) := by
  obtain ⟨hkl, hdl, hids⟩ := hb
  have hassoc : entryLayout k docs ++ rest =
      i16bytes ((strBytes k).length : ℤ) ++ (strBytes k ++
        (i16bytes ((docs.length : ℕ) : ℤ) ++ ((docs.map i16bytes).flatten ++ rest))) := by
    simp [entryLayout, List.append_assoc]
  rw [loadEntry, hassoc, readBytes_exact _ _ (length_i16bytes _)]
  simp only [pure_eq_ok, ok_bind]
  rw [show unpack_i16 (i16bytes ((strBytes k).length : ℤ)) = ((strBytes k).length : ℤ) from
    unpack_pack_i16 _ (by omega) (by omega)]
  rw [if_neg (by omega), Int.toNat_natCast, readBytes_exact _ _ rfl]
  simp only [pure_eq_ok, ok_bind]
  rw [utf8ToStr_strBytes]
  simp only [pure_eq_ok, ok_bind]
  rw [readBytes_exact _ _ (length_i16bytes _)]
  simp only [pure_eq_ok, ok_bind]
  rw [show unpack_i16 (i16bytes ((docs.length : ℕ) : ℤ)) = ((docs.length : ℕ) : ℤ) from
    unpack_pack_i16 _ (by omega) (by omega)]
  rw [if_neg (by omega), Int.toNat_natCast, readBytes_exact _ _ (flatten_i16_length docs)]
  simp only [pure_eq_ok, ok_bind]
  rw [chunkIds_flatten docs hids]

theorem loadLoop_layout (es : Term2Doc) (rest : List ℕ)
    (h : ∀ p ∈ es, entryInBounds p.1 p.2) :
    loadLoop es.length ((es.map (fun p => entryLayout p.1 p.2)).flatten ++ rest) =
      .ok (es, rest) := by
  induction es generalizing rest with
  | nil => rfl
  | cons p es ih =>
    rw [List.length_cons, List.map_cons, List.flatten_cons, List.append_assoc, loadLoop,
      loadEntry_layout p.1 p.2 _ (h p (by simp))]
    simp only [ok_bind]
    rw [ih _ (fun q hq => h q (by simp [hq]))]
    simp only [ok_bind]

theorem load_fileLayout {m : Term2Doc} (hb : inBounds m) : load (fileLayout m) = .ok m := by
  have hcnt := hb.1
  rw [load, fileLayout, readBytes_exact _ _ (length_i32bytes _)]
  simp only [pure_eq_ok, ok_bind]
  rw [show unpack_i32 (i32bytes ((m.length : ℕ) : ℤ)) = ((m.length : ℕ) : ℤ) from
    unpack_pack_i32 _ (by omega) (by omega), Int.toNat_natCast,
    show (m.map fun p => entryLayout p.1 p.2).flatten =
      (m.map fun p => entryLayout p.1 p.2).flatten ++ [] from (List.append_nil _).symm,
    loadLoop_layout m [] hb.2]
  simp only [ok_bind]

theorem dumpEntry_ok_inv {k : String} {docs : List ℤ} {bs : List ℕ}
    (h : dumpEntry k docs = .ok bs) :
    entryInBounds k docs ∧ bs = entryLayout k docs := by
  rw [dumpEntry] at h
  cases h1 : pack_i16 ((strBytes k).length : ℤ) with
  | error e => rw [h1, error_bind] at h; cases h
  | ok b1 =>
    rw [h1, ok_bind] at h
    cases h2 : pack_i16 ((docs.length : ℕ) : ℤ) with
    | error e => rw [h2, error_bind] at h; cases h
    | ok b2 =>
      rw [h2, ok_bind] at h
      cases h3 : docs.mapM pack_i16 with
      | error e => rw [h3, error_bind] at h; cases h
      | ok l =>
        rw [h3, ok_bind] at h
        cases h
        obtain ⟨hb1, he1⟩ := pack_i16_ok_inv h1
        obtain ⟨hb2, he2⟩ := pack_i16_ok_inv h2
        obtain ⟨hb3, he3⟩ := mapM_pack_i16_ok_inv h3
        refine ⟨⟨by omega, by omega, hb3⟩, ?_⟩
        rw [he1, he2, he3, entryLayout]

theorem mapM_dumpEntry_ok_inv {m : Term2Doc} {es : List (List ℕ)}
    (h : m.mapM (fun p => dumpEntry p.1 p.2) = .ok es) :
    (∀ p ∈ m, entryInBounds p.1 p.2) ∧ es = m.map (fun p => entryLayout p.1 p.2) := by
  induction m generalizing es with
  | nil =>
    rw [List.mapM_nil] at h
    cases h
    exact ⟨by simp, rfl⟩
  | cons p ps ih =>
    rw [List.mapM_cons] at h
    cases h1 : dumpEntry p.1 p.2 with
    | error e => rw [h1, error_bind] at h; cases h
    | ok b =>
      rw [h1, ok_bind] at h
      cases h2 : ps.mapM (fun p => dumpEntry p.1 p.2) with
      | error e => rw [h2, error_bind] at h; cases h
      | ok bs =>
        rw [h2, ok_bind, pure_eq_ok] at h
        cases h
        obtain ⟨hb1, he1⟩ := dumpEntry_ok_inv h1
        obtain ⟨hall, hmap⟩ := ih h2
        constructor
        · intro q hq
          rcases List.mem_cons.mp hq with h' | h'
          · exact h' ▸ hb1
          · exact hall q h'
        · rw [he1, hmap, List.map_cons]

theorem dump_ok_inv {m : Term2Doc} {bs : List ℕ} (h : dump m = .ok bs) :
    inBounds m ∧ bs = fileLayout m := by
  rw [dump] at h
  cases h1 : pack_i32 ((m.length : ℕ) : ℤ) with
  | error e => rw [h1, error_bind] at h; cases h
  | ok b1 =>
    rw [h1, ok_bind] at h
    cases h2 : m.mapM (fun p => dumpEntry p.1 p.2) with
    | error e => rw [h2, error_bind] at h; cases h
    | ok es =>
      rw [h2, ok_bind] at h
      cases h
      obtain ⟨hb1, he1⟩ := pack_i32_ok_inv h1
      obtain ⟨hall, hmap⟩ := mapM_dumpEntry_ok_inv h2
      refine ⟨⟨by omega, hall⟩, ?_⟩
      rw [he1, hmap, fileLayout]

theorem dump_err_of_not_inBounds {m : Term2Doc} (h : ¬ inBounds m) :
    isErr (dump m) = true := by
  cases hd : dump m with
  | error e => rfl
  | ok bs => exact absurd (dump_ok_inv hd).1 h

theorem entryLayout_assoc (k : String) (docs : List ℤ) :
    entryLayout k docs =
      i16bytes ((strBytes k).length : ℤ) ++ (strBytes k ++
        (i16bytes ((docs.length : ℕ) : ℤ) ++ (docs.map i16bytes).flatten)) := by
  simp [entryLayout, List.append_assoc]

theorem entryLayout_length (k : String) (docs : List ℤ) :
    (entryLayout k docs).length = 2 + (strBytes k).length + 2 + 2 * docs.length := by
  simp only [entryLayout, List.length_append, length_i16bytes, flatten_i16_length]

theorem loadEntry_truncated (k : String) (docs : List ℤ) (hb : entryInBounds k docs)
    (j : ℕ) (hj : j < (entryLayout k docs).length) :
    loadEntry ((entryLayout k docs).take j) = .error DecodingError.truncated := by
  obtain ⟨hkl, hdl, hids⟩ := hb
  have hlen := entryLayout_length k docs
  by_cases c1 : j < 2
  · have hsh : ((entryLayout k docs).take j).length < 2 := by
      rw [List.length_take]
      omega
    rw [loadEntry, readBytes_short hsh]
    simp only [throw_eq_error, error_bind]
  · by_cases c2 : j < 2 + (strBytes k).length
    · have heq : (entryLayout k docs).take j =
          i16bytes ((strBytes k).length : ℤ) ++
            ((strBytes k ++ (i16bytes ((docs.length : ℕ) : ℤ) ++
              (docs.map i16bytes).flatten)).take (j - 2)) := by
        rw [entryLayout_assoc, take_append_ge _ _ _ (by rw [length_i16bytes]; omega),
          length_i16bytes]
      rw [loadEntry, heq, readBytes_exact _ _ (length_i16bytes _)]
      simp only [pure_eq_ok, ok_bind]
      rw [show unpack_i16 (i16bytes ((strBytes k).length : ℤ)) = ((strBytes k).length : ℤ) from
        unpack_pack_i16 _ (by omega) (by omega)]
      rw [if_neg (by omega), Int.toNat_natCast]
      rw [readBytes_short (by
        rw [List.length_take]
        simp only [List.length_append, length_i16bytes, flatten_i16_length]
        omega)]
      simp only [throw_eq_error, error_bind]
    · by_cases c3 : j < 4 + (strBytes k).length
      · have heq : (entryLayout k docs).take j =
            i16bytes ((strBytes k).length : ℤ) ++
              (strBytes k ++ ((i16bytes ((docs.length : ℕ) : ℤ) ++
                (docs.map i16bytes).flatten).take (j - 2 - (strBytes k).length))) := by
          rw [entryLayout_assoc, take_append_ge _ _ _ (by rw [length_i16bytes]; omega),
            length_i16bytes, take_append_ge _ _ _ (by omega)]
        rw [loadEntry, heq, readBytes_exact _ _ (length_i16bytes _)]
        simp only [pure_eq_ok, ok_bind]
        rw [show unpack_i16 (i16bytes ((strBytes k).length : ℤ)) =
            ((strBytes k).length : ℤ) from unpack_pack_i16 _ (by omega) (by omega)]
        rw [if_neg (by omega), Int.toNat_natCast, readBytes_exact _ _ rfl]
        simp only [pure_eq_ok, ok_bind]
        rw [utf8ToStr_strBytes]
        simp only [pure_eq_ok, ok_bind]
        rw [readBytes_short (by
          rw [List.length_take]
          simp only [List.length_append, length_i16bytes, flatten_i16_length]
          omega)]
        simp only [throw_eq_error, error_bind]
      · have c4 : j < 4 + (strBytes k).length + 2 * docs.length := by omega
        have heq : (entryLayout k docs).take j =
            i16bytes ((strBytes k).length : ℤ) ++
              (strBytes k ++ (i16bytes ((docs.length : ℕ) : ℤ) ++
                ((docs.map i16bytes).flatten).take (j - 2 - (strBytes k).length - 2))) := by
          rw [entryLayout_assoc, take_append_ge _ _ _ (by rw [length_i16bytes]; omega),
            length_i16bytes, take_append_ge _ _ _ (by omega),
            take_append_ge _ _ _ (by rw [length_i16bytes]; omega), length_i16bytes]
        rw [loadEntry, heq, readBytes_exact _ _ (length_i16bytes _)]
        simp only [pure_eq_ok, ok_bind]
        rw [show unpack_i16 (i16bytes ((strBytes k).length : ℤ)) =
            ((strBytes k).length : ℤ) from unpack_pack_i16 _ (by omega) (by omega)]
        rw [if_neg (by omega), Int.toNat_natCast, readBytes_exact _ _ rfl]
        simp only [pure_eq_ok, ok_bind]
        rw [utf8ToStr_strBytes]
        simp only [pure_eq_ok, ok_bind]
        rw [readBytes_exact _ _ (length_i16bytes _)]
        simp only [pure_eq_ok, ok_bind]
        rw [show unpack_i16 (i16bytes ((docs.length : ℕ) : ℤ)) = ((docs.length : ℕ) : ℤ) from
          unpack_pack_i16 _ (by omega) (by omega)]
        rw [if_neg (by omega), Int.toNat_natCast]
        rw [readBytes_short (by
          rw [List.length_take, flatten_i16_length]
          omega)]
        simp only [throw_eq_error, error_bind]

theorem loadLoop_truncated (es : Term2Doc) (h : ∀ p ∈ es, entryInBounds p.1 p.2) :
    ∀ j, j < ((es.map (fun p => entryLayout p.1 p.2)).flatten).length →
      loadLoop es.length (((es.map (fun p => entryLayout p.1 p.2)).flatten).take j) =
        .error DecodingError.truncated := by
  induction es with
  | nil => intro j hj; simp at hj
  | cons p es ih =>
    intro j hj
    rw [List.map_cons, List.flatten_cons] at hj ⊢
    rw [List.length_append] at hj
    by_cases hc : j < (entryLayout p.1 p.2).length
    · rw [take_append_le _ _ _ (by omega), List.length_cons, loadLoop,
        loadEntry_truncated p.1 p.2 (h p (by simp)) j hc]
      simp only [error_bind]
    · rw [take_append_ge _ _ _ (by omega), List.length_cons, loadLoop,
        loadEntry_layout p.1 p.2 _ (h p (by simp))]
      simp only [ok_bind]
      rw [ih (fun q hq => h q (by simp [hq])) _ (by omega)]
      simp only [error_bind]

theorem load_truncated {m : Term2Doc} (hb : inBounds m) (j : ℕ)
    (hj : j < (fileLayout m).length) :
    load ((fileLayout m).take j) = .error DecodingError.truncated := by
  have hcnt := hb.1
  have hflen : (fileLayout m).length =
      4 + ((m.map (fun p => entryLayout p.1 p.2)).flatten).length := by
    simp only [fileLayout, List.length_append, length_i32bytes]
  by_cases c1 : j < 4
  · rw [load, readBytes_short (by rw [List.length_take]; omega)]
    simp only [throw_eq_error, error_bind]
  · have heq : (fileLayout m).take j = i32bytes ((m.length : ℕ) : ℤ) ++
        ((m.map (fun p => entryLayout p.1 p.2)).flatten).take (j - 4) := by
      rw [fileLayout, take_append_ge _ _ _ (by rw [length_i32bytes]; omega), length_i32bytes]
    rw [load, heq, readBytes_exact _ _ (length_i32bytes _)]
    simp only [pure_eq_ok, ok_bind]
    rw [show unpack_i32 (i32bytes ((m.length : ℕ) : ℤ)) = ((m.length : ℕ) : ℤ) from
      unpack_pack_i32 _ (by omega) (by omega), Int.toNat_natCast]
    rw [loadLoop_truncated m hb.2 (j - 4) (by omega)]
    simp only [error_bind]

/-- Claim C3: round trip of the binary codec — for every postings mapping
whose term byte lengths, posting-list lengths and document ids fit in a
signed 16-bit field and whose term count fits in a signed 32-bit field,
`dump` succeeds and `load` of the dumped bytes reproduces the mapping
exactly (same terms in the same order, each with its id list equal in
content and order). -/
theorem C3_thm (m : Term2Doc) (hb : inBounds m) (hnd : keysNodup m) :
    ∃ bs, dump m = .ok bs ∧ load bs = .ok m :=
  ⟨fileLayout m, dump_ok hb, load_fileLayout hb⟩

/-- Claim C3, witness: the round trip evaluated on the concrete mapping
`{"ab": [1, -1]}`. -/
theorem C3_wit :
    inBounds [("ab", [1, -1])] ∧ keysNodup [("ab", [1, -1])] ∧
    ∃ bs, dump [("ab", [1, -1])] = .ok bs ∧ load bs = .ok [("ab", [1, -1])] :=
  ⟨by decide, by decide, C3_thm [("ab", [1, -1])] (by decide) (by decide)⟩

/-- Claim C4: malformed stream rejection — truncating a valid dumped file
(of an index with at least one term) by any positive number of bytes
makes `load` fail with the truncation decoding error; it never returns a
partial mapping. -/
theorem C4_thm (m : Term2Doc) (bs : List ℕ) (hdump : dump m = .ok bs)
    (hne : m ≠ []) (k : ℕ) (hk : k < bs.length) :
    load (bs.take k) = .error DecodingError.truncated := by
  obtain ⟨hb, hfl⟩ := dump_ok_inv hdump
  subst hfl
  exact load_truncated hb k hk

/-- Claim C4, witness: truncating the 11-byte dump of `{"a": [1]}` to its
first 7 bytes makes `load` fail. -/
theorem C4_wit :
    dump [("a", [1])] = .ok (fileLayout [("a", [1])]) ∧
    load ((fileLayout [("a", [1])]).take 7) = .error DecodingError.truncated :=
  ⟨by decide,
    C4_thm [("a", [1])] (fileLayout [("a", [1])]) (by decide) (by decide) 7 (by decide)⟩

/-- Claim C5: encoding bound errors — `dump` fails with an encoding error
exactly when the mapping violates a field bound (a term byte length or
posting-list length above 32767, a document id outside the signed 16-bit
range, or a term count outside the signed 32-bit range); within all
bounds it succeeds and writes exactly the fixed big-endian layout of the
spec (`fileLayout`). -/
theorem C5_thm (m : Term2Doc) :
    (inBounds m → dump m = .ok (fileLayout m)) ∧
    (¬ inBounds m → isErr (dump m) = true) :=
  ⟨fun hb => dump_ok hb, fun h => dump_err_of_not_inBounds h⟩

/-- Claim C5, witness: both directions evaluated — the in-bounds mapping
`{"a": [1]}` dumps to the exact layout, while `{"b": [40000]}` (id above
the signed 16-bit range) makes `dump` fail. -/
theorem C5_wit :
    dump [("a", [1])] = .ok (fileLayout [("a", [1])]) ∧
    isErr (dump [("b", [40000])]) = true :=
  ⟨(C5_thm [("a", [1])]).1 (by decide), (C5_thm [("b", [40000])]).2 (by decide)⟩


end InvIdx
